import Mathlib

set_option autoImplicit false

namespace DevForge

/-- Byte strings are modelled as lists of naturals; a well-formed byte is below 256. -/
abbrev Bytes := List Nat

/-- All bytes of a byte string are below 256 (the byte-level image of a valid UTF-8 string). -/
def validBytes (bs : Bytes) : Prop := ∀ b ∈ bs, b < 256

instance validBytes.dec (bs : Bytes) : Decidable (validBytes bs) := by
  unfold validBytes
  infer_instance

/-- The byte-level view of a name: its characters as naturals. -/
def strBytes (s : String) : Bytes := s.toList.map Char.toNat

/-- Modelled from the spec: `src/core/secrets_manager.py` is absent from the source tree
(only its tests and callers are present), so the cipher is modelled after spec sections 3
and 4.2: a keyed keystream derived from the key and the per-entry nonce. One mixing step
of the keystream state. -/
def mixB (a b : Nat) : Nat := (a * 131 + b + 17) % 256

/-- Modelled from the spec: keystream byte `i` for a given key and nonce. -/
def prf (key nonce : Bytes) (i : Nat) : Nat :=
  ((key ++ nonce).foldl mixB 7 + i * 101) % 256

/-- Modelled from the spec: combine a byte string with the keystream starting at index `i`.
Applying it twice with the same key and nonce restores the input, so it serves as both
encryption and decryption. -/
def xorStream (key nonce : Bytes) : Nat → Bytes → Bytes
  | _, [] => []
  | i, b :: bs => (b ^^^ prf key nonce i) :: xorStream key nonce (i + 1) bs

/-- Modelled from the spec (section 3): the authentication tag over key, nonce and
ciphertext; decryption recomputes it so that any corruption of the ciphertext is
detected rather than decrypted to garbage. -/
def tagOf (key nonce ct : Bytes) : Nat := (key ++ nonce ++ ct).sum % 256

/-- Modelled from the spec (section 3): a named secret's encrypted payload -
per-entry nonce, ciphertext and authentication tag. The plaintext value is never
part of the persisted representation. -/
structure SecretEntry where
  nonce : Bytes
  ciphertext : Bytes
  tag : Nat
deriving DecidableEq, Repr

/-- Modelled from the spec (section 3): the on-disk container - a format version plus
the mapping from names to entries. -/
structure SecretStoreFile where
  version : Nat
  entries : List (String × SecretEntry)
deriving DecidableEq, Repr

/-- Modelled from the spec (section 7): the error taxonomy of the secrets core.
`storeNotInitialized` is StoreNotInitializedError, `keyAcquisition` is
KeyAcquisitionError, `corruptStore` is CorruptStoreError. -/
inductive SecretsError where
  | storeNotInitialized
  | keyAcquisition
  | corruptStore
deriving DecidableEq, Repr

instance exceptDecEq {ε α : Type} [DecidableEq ε] [DecidableEq α] : DecidableEq (Except ε α) :=
  fun x y =>
    match x, y with
    | Except.ok a, Except.ok b =>
        if h : a = b then isTrue (by rw [h]) else isFalse (by intro hc; cases hc; exact h rfl)
    | Except.error a, Except.error b =>
        if h : a = b then isTrue (by rw [h]) else isFalse (by intro hc; cases hc; exact h rfl)
    | Except.ok _, Except.error _ => isFalse (by intro hc; cases hc)
    | Except.error _, Except.ok _ => isFalse (by intro hc; cases hc)

/-- Modelled from the spec (4.2): encrypt a plaintext under the key with a fresh nonce,
attaching the authentication tag. -/
def encryptEntry (key nonce pt : Bytes) : SecretEntry :=
  ⟨nonce, xorStream key nonce 0 pt, tagOf key nonce (xorStream key nonce 0 pt)⟩

/-- Modelled from the spec (4.2): recompute and verify the tag, then decrypt; a tag
mismatch surfaces as CorruptStoreError rather than returning wrong data silently. -/
def decryptEntry (key : Bytes) (e : SecretEntry) : Except SecretsError Bytes :=
  if tagOf key e.nonce e.ciphertext = e.tag then
    Except.ok (xorStream key e.nonce 0 e.ciphertext)
  else
    Except.error SecretsError.corruptStore

/-- Paths are modelled as lists of path components. -/
abbrev FsPath := List String

/-- A file's contents: the encrypted store container, a plaintext runtime env file
(NAME=value lines), or raw bytes. -/
inductive FileContent where
  | store (s : SecretStoreFile)
  | env (lines : List (String × Bytes))
  | raw (bs : Bytes)
deriving DecidableEq, Repr

def lookupFile : List (FsPath × FileContent) → FsPath → Option FileContent
  | [], _ => none
  | (q, c) :: rest, p => if q = p then some c else lookupFile rest p

def writeFileList : List (FsPath × FileContent) → FsPath → FileContent → List (FsPath × FileContent)
  | [], p, c => [(p, c)]
  | (q, d) :: rest, p, c => if q = p then (q, c) :: rest else (q, d) :: writeFileList rest p c

/-- The filesystem: a finite map from paths to file contents. -/
structure FS where
  files : List (FsPath × FileContent)
deriving DecidableEq, Repr

def FS.read (fs : FS) (p : FsPath) : Option FileContent := lookupFile fs.files p

/-- Writing replaces the file at the path in one step (spec 4.2: write to a temporary
file then rename over the target, so only complete contents are ever observable; the
model reflects this by a single atomic replacement). -/
def FS.write (fs : FS) (p : FsPath) (c : FileContent) : FS := ⟨writeFileList fs.files p c⟩

/-- Modelled from the spec: the secrets manager for one project path, holding the key
material obtained from the KeyManager (spec section 2: the key is obtained once and
treated as immutable for the process lifetime). -/
structure SecretsManager where
  projectPath : FsPath
  key : Bytes
deriving DecidableEq, Repr

/-- The encrypted store file path: projectPath/.secrets.devforge (file name from
src/src/tests/test_secret_injection.py and src/src/core/project_generator.py). -/
def secretsFile (m : SecretsManager) : FsPath := m.projectPath ++ [".secrets.devforge"]

/-- Default injection output path: projectPath/.env.secrets (file name from
src/src/cli/secrets.py). -/
def envSecretsFile (m : SecretsManager) : FsPath := m.projectPath ++ [".env.secrets"]

/-- Modelled from the spec (4.2): create an empty store file if absent and report
`true`; report `false` and change nothing if one already exists. -/
def initStore (m : SecretsManager) (fs : FS) : FS × Bool :=
  match fs.read (secretsFile m) with
  | some _ => (fs, false)
  | none => (fs.write (secretsFile m) (FileContent.store ⟨1, []⟩), true)

/-- Modelled from the spec: load and validate the store file; an absent file is
StoreNotInitializedError, a non-store or wrong-version file is CorruptStoreError
(spec section 6: the format rejects incompatible versions). -/
def loadStore (m : SecretsManager) (fs : FS) : Except SecretsError SecretStoreFile :=
  match fs.read (secretsFile m) with
  | none => Except.error SecretsError.storeNotInitialized
  | some (FileContent.store s) =>
      if s.version = 1 then Except.ok s else Except.error SecretsError.corruptStore
  | some _ => Except.error SecretsError.corruptStore

def lookupEntry : List (String × SecretEntry) → String → Option SecretEntry
  | [], _ => none
  | (n, e) :: rest, k => if n = k then some e else lookupEntry rest k

def upsertEntry : List (String × SecretEntry) → String → SecretEntry → List (String × SecretEntry)
  | [], k, e => [(k, e)]
  | (n, d) :: rest, k, e => if n = k then (n, e) :: rest else (n, d) :: upsertEntry rest k e

/-- Modelled from the spec (4.2): `set_secret` requires the store to be initialized,
encrypts the value with a fresh nonce, and performs a read-modify-write of the whole
store: load the current entries, upsert the new entry, write the result atomically.
The write lock serializes calls, so each call is one atomic step of this function. -/
def setSecret (m : SecretsManager) (nonce : Bytes) (fs : FS) (name : String) (value : Bytes) :
    Except SecretsError FS :=
  match loadStore m fs with
  | Except.error e => Except.error e
  | Except.ok s =>
      Except.ok (fs.write (secretsFile m)
        (FileContent.store ⟨s.version, upsertEntry s.entries name (encryptEntry m.key nonce value)⟩))

/-- Modelled from the spec (4.2): `get_secret` loads the store, decrypts the matching
entry if present, and returns "not found" (not an error) when the name is absent. It is
a pure read: it returns no filesystem, so it cannot modify the store. -/
def getSecret (m : SecretsManager) (fs : FS) (name : String) : Except SecretsError (Option Bytes) :=
  match loadStore m fs with
  | Except.error e => Except.error e
  | Except.ok s =>
      match lookupEntry s.entries name with
      | none => Except.ok none
      | some e =>
          match decryptEntry m.key e with
          | Except.error er => Except.error er
          | Except.ok v => Except.ok (some v)

/-- Modelled from the spec (4.2): `list_secrets` returns only the names and never
triggers decryption of values. -/
def listSecrets (m : SecretsManager) (fs : FS) : Except SecretsError (List String) :=
  match loadStore m fs with
  | Except.error e => Except.error e
  | Except.ok s => Except.ok (s.entries.map Prod.fst)

/-- Modelled from the spec (4.3): decrypt every entry of the store, failing on the
first corrupt one. -/
def decryptAll (key : Bytes) : List (String × SecretEntry) → Except SecretsError (List (String × Bytes))
  | [] => Except.ok []
  | (n, e) :: rest =>
      match decryptEntry key e, decryptAll key rest with
      | Except.ok v, Except.ok vs => Except.ok ((n, v) :: vs)
      | Except.error er, _ => Except.error er
      | _, Except.error er => Except.error er

/-- Modelled from the spec (4.3): `inject_runtime_env` decrypts every entry and writes
them as NAME=value lines to the output file (default projectPath/.env.secrets),
overwriting any existing file at that path; the encrypted store is not altered. -/
def injectRuntimeEnv (m : SecretsManager) (out : Option FsPath) (fs : FS) :
    Except SecretsError (FsPath × FS) :=
  match loadStore m fs with
  | Except.error e => Except.error e
  | Except.ok s =>
      match decryptAll m.key s.entries with
      | Except.error e => Except.error e
      | Except.ok lines =>
          match out with
          | some q => Except.ok (q, fs.write q (FileContent.env lines))
          | none => Except.ok (envSecretsFile m, fs.write (envSecretsFile m) (FileContent.env lines))

/-- Modelled from the spec (4.1): the host state the KeyManager interacts with - the
native secure-credential facility (its availability, stored key, and whether storing
works), the fallback key file, whether the filesystem is writable, and the fresh
cryptographically random key that would be generated on first use. -/
structure KeyEnv where
  nativeAvailable : Bool
  nativeStored : Option Bytes
  nativeStoreWorks : Bool
  keyFileContent : Option Bytes
  fsWritable : Bool
  freshKey : Bytes
deriving DecidableEq, Repr

/-- Modelled from the spec (4.1): the file fallback - read the per-project key file if
present, otherwise create it with the fresh key; if the filesystem is not writable
either, fail with KeyAcquisitionError. -/
def fileFallback (env : KeyEnv) : Except SecretsError (Bytes × KeyEnv) :=
  match env.keyFileContent with
  | some k => Except.ok (k, env)
  | none =>
      if env.fsWritable then
        Except.ok (env.freshKey, ⟨env.nativeAvailable, env.nativeStored, env.nativeStoreWorks,
          some env.freshKey, env.fsWritable, env.freshKey⟩)
      else
        Except.error SecretsError.keyAcquisition

/-- Modelled from the spec (4.1): try the native secure-credential facility first
(retrieve a stored key, else generate and store a fresh one), and fall back to the
per-project key file when the native facility is unavailable or storing fails. -/
def getOrCreateKey (env : KeyEnv) : Except SecretsError (Bytes × KeyEnv) :=
  if env.nativeAvailable then
    match env.nativeStored with
    | some k => Except.ok (k, env)
    | none =>
        if env.nativeStoreWorks then
          Except.ok (env.freshKey, ⟨env.nativeAvailable, some env.freshKey,
            env.nativeStoreWorks, env.keyFileContent, env.fsWritable, env.freshKey⟩)
        else
          fileFallback env
  else
    fileFallback env

/-- One recorded `set_secret` call: the name, the fresh nonce drawn for the call, and
the value. -/
structure SetOp where
  name : String
  nonce : Bytes
  value : Bytes
deriving DecidableEq, Repr

/-- Modelled from the spec (section 5): the write lock linearizes `set_secret` calls,
so any concurrent execution of a batch of calls is equivalent to running them one
after another in some order; this function runs one such order. -/
def runSets (m : SecretsManager) (fs : FS) : List SetOp → Except SecretsError FS
  | [] => Except.ok fs
  | op :: ops =>
      match setSecret m op.nonce fs op.name op.value with
      | Except.error e => Except.error e
      | Except.ok fs1 => runSets m fs1 ops

/-- The base64 alphabet character for `n % 64` (A-Z, a-z, 0-9, plus, slash),
as an ASCII code. -/
def b64char (n : Nat) : Nat :=
  if n % 64 < 26 then 65 + n % 64
  else if n % 64 < 52 then 71 + n % 64
  else if n % 64 < 62 then n % 64 - 4
  else if n % 64 = 62 then 43
  else 47

/-- Modelled from the spec (section 6): a simple base64-alphabet encoding of a byte
string, two characters per byte. -/
def encB64 : Bytes → Bytes
  | [] => []
  | b :: bs => b64char (b / 16) :: b64char (b % 16) :: encB64 bs

/-- Join serialized fragments with ASCII commas. -/
def joinComma : List Bytes → Bytes
  | [] => []
  | [x] => x
  | x :: y :: rest => x ++ 44 :: joinComma (y :: rest)

/-- Modelled from the spec (section 6): the serialized form of one entry - the name in
the clear (names, not values, are plaintext so listing needs no decryption) and the
base64-encoded nonce, ciphertext and tag as JSON-style fields. -/
def serializeEntry (p : String × SecretEntry) : Bytes :=
  strBytes "\"" ++ strBytes p.1 ++ strBytes "\":\x7b\"nonce\":\"" ++ encB64 p.2.nonce ++
    strBytes "\",\"ct\":\"" ++ encB64 p.2.ciphertext ++ strBytes "\",\"tag\":\"" ++
    encB64 [p.2.tag] ++ strBytes "\"\x7d"

/-- Modelled from the spec (section 6): the bytes of the encrypted store file - a
JSON-with-base64 container holding the version and the name-to-entry mapping. -/
def serializeStore (s : SecretStoreFile) : Bytes :=
  strBytes "\x7b\"version\":\"" ++ encB64 [s.version] ++ strBytes "\",\"entries\":\x7b" ++
    joinComma (s.entries.map serializeEntry) ++ strBytes "\x7d\x7d"

/-- Modelled from the spec (section 6): the runtime env export file - plain NAME=value
lines, one secret per line. -/
def envRender : List (String × Bytes) → Bytes
  | [] => []
  | (n, v) :: rest => strBytes n ++ 61 :: v ++ 10 :: envRender rest

/-- The bytes a file occupies on disk. -/
def fileBytes : FileContent → Bytes
  | FileContent.store s => serializeStore s
  | FileContent.env lines => envRender lines
  | FileContent.raw bs => bs

/-- Whether a byte is in the store file's framing alphabet: the base64 alphabet or
JSON punctuation (quote, colon, comma, braces). -/
def framingByte (b : Nat) : Bool :=
  (65 ≤ b && b ≤ 90) || (97 ≤ b && b ≤ 122) || (48 ≤ b && b ≤ 57) || b = 43 || b = 47 ||
    b = 34 || b = 58 || b = 44 || b = 123 || b = 125

/-- Whether a byte can occur at all in the serialized store: either framing or a byte
of one of the stored (plaintext) names. -/
def allowedByte (s : SecretStoreFile) (b : Nat) : Bool :=
  framingByte b || s.entries.any (fun p => (strBytes p.1).contains b)

/-- Running `set_secret` as a state transition: on failure the filesystem is returned
unchanged together with the error, mirroring that a raised error performs no write. -/
def setSecretRun (m : SecretsManager) (nonce : Bytes) (fs : FS) (name : String) (value : Bytes) :
    FS × Option SecretsError :=
  match setSecret m nonce fs name value with
  | Except.ok fs1 => (fs1, none)
  | Except.error e => (fs, some e)

/-- The entries produced by running a batch of upserts of encrypted entries. -/
def applyOps (key : Bytes) : List (String × SecretEntry) → List SetOp → List (String × SecretEntry)
  | es, [] => es
  | es, op :: ops => applyOps key (upsertEntry es op.name (encryptEntry key op.nonce op.value)) ops

theorem lookupFile_write_self (l : List (FsPath × FileContent)) (p : FsPath) (c : FileContent) :
    lookupFile (writeFileList l p c) p = some c := by
  induction l with
  | nil => simp [writeFileList, lookupFile]
  | cons hd tl ih =>
      obtain ⟨q, d⟩ := hd
      by_cases h : q = p
      · simp [writeFileList, lookupFile, h]
      · simp [writeFileList, lookupFile, h, ih]

theorem lookupFile_write_ne (l : List (FsPath × FileContent)) (p q : FsPath) (c : FileContent)
    (h : q ≠ p) : lookupFile (writeFileList l p c) q = lookupFile l q := by
  have hpq : ¬ p = q := fun hh => h hh.symm
  induction l with
  | nil => simp [writeFileList, lookupFile, hpq]
  | cons hd tl ih =>
      obtain ⟨r, d⟩ := hd
      by_cases hr : r = p
      · subst hr
        simp [writeFileList, lookupFile, hpq]
      · simp only [writeFileList, if_neg hr, lookupFile]
        by_cases hq : r = q
        · simp [hq]
        · simp [hq, ih]

theorem FS.read_write_self (fs : FS) (p : FsPath) (c : FileContent) :
    (fs.write p c).read p = some c :=
  lookupFile_write_self fs.files p c

theorem FS.read_write_ne (fs : FS) (p q : FsPath) (c : FileContent) (h : q ≠ p) :
    (fs.write p c).read q = fs.read q :=
  lookupFile_write_ne fs.files p q c h

theorem xorStream_involution (key nonce : Bytes) :
    ∀ (i : Nat) (bs : Bytes), xorStream key nonce i (xorStream key nonce i bs) = bs := by
  intro i bs
  induction bs generalizing i with
  | nil => simp [xorStream]
  | cons b bs ih => simp [xorStream, Nat.xor_assoc, Nat.xor_self, ih]

theorem decryptEntry_encryptEntry (key nonce pt : Bytes) :
    decryptEntry key (encryptEntry key nonce pt) = Except.ok pt := by
  simp [decryptEntry, encryptEntry, xorStream_involution]

theorem lookupEntry_upsert_self (l : List (String × SecretEntry)) (k : String) (e : SecretEntry) :
    lookupEntry (upsertEntry l k e) k = some e := by
  induction l with
  | nil => simp [upsertEntry, lookupEntry]
  | cons hd tl ih =>
      obtain ⟨n, d⟩ := hd
      by_cases h : n = k
      · simp [upsertEntry, lookupEntry, h]
      · simp [upsertEntry, lookupEntry, h, ih]

theorem upsertEntry_not_mem (l : List (String × SecretEntry)) (k : String) (e : SecretEntry)
    (h : k ∉ l.map Prod.fst) : upsertEntry l k e = l ++ [(k, e)] := by
  induction l with
  | nil => simp [upsertEntry]
  | cons hd tl ih =>
      obtain ⟨n, d⟩ := hd
      simp only [List.map_cons, List.mem_cons] at h
      push_neg at h
      have hnk : ¬ n = k := fun hh => h.1 hh.symm
      simp [upsertEntry, hnk, ih h.2]

theorem loadStore_of_read (m : SecretsManager) (fs : FS) (s : SecretStoreFile)
    (h : fs.read (secretsFile m) = some (FileContent.store s)) (hv : s.version = 1) :
    loadStore m fs = Except.ok s := by
  simp [loadStore, h, hv]

theorem loadStore_ok_elim (m : SecretsManager) (fs : FS) (s : SecretStoreFile)
    (h : loadStore m fs = Except.ok s) :
    fs.read (secretsFile m) = some (FileContent.store s) ∧ s.version = 1 := by
  unfold loadStore at h
  split at h
  · exact absurd h (by simp)
  case _ s' heq =>
    split at h
    case isTrue hv =>
      cases h
      exact ⟨heq, hv⟩
    case isFalse => exact absurd h (by simp)
  · exact absurd h (by simp)

theorem sum_set (l : List Nat) :
    ∀ (i : Nat) (b : Nat), i < l.length → (l.set i b).sum + l.getD i 0 = l.sum + b := by
  induction l with
  | nil => intro i b h; simp at h
  | cons x xs ih =>
      intro i b h
      cases i with
      | zero => simp [List.set]; omega
      | succ j =>
          simp only [List.set, List.sum_cons, List.getD_cons_succ]
          have := ih j b (by simpa using h)
          omega

theorem tagOf_flip_ne (key nonce ct : Bytes) (i b : Nat)
    (hi : i < ct.length) (ha : ct.getD i 0 < 256) (hb : b < 256) (hne : b ≠ ct.getD i 0) :
    tagOf key nonce (ct.set i b) ≠ tagOf key nonce ct := by
  unfold tagOf
  have hsum := sum_set ct i b hi
  simp only [List.append_assoc, List.sum_append]
  omega

theorem runSets_ok (m : SecretsManager) :
    ∀ (ops : List SetOp) (fs : FS) (es : List (String × SecretEntry)),
      fs.read (secretsFile m) = some (FileContent.store ⟨1, es⟩) →
      ∃ fs1, runSets m fs ops = Except.ok fs1 ∧
        fs1.read (secretsFile m) = some (FileContent.store ⟨1, applyOps m.key es ops⟩) := by
  intro ops
  induction ops with
  | nil => intro fs es h; exact ⟨fs, rfl, h⟩
  | cons op ops ih =>
      intro fs es h
      have hload : loadStore m fs = Except.ok ⟨1, es⟩ := loadStore_of_read m fs ⟨1, es⟩ h rfl
      have hset : setSecret m op.nonce fs op.name op.value =
          Except.ok (fs.write (secretsFile m) (FileContent.store
            ⟨1, upsertEntry es op.name (encryptEntry m.key op.nonce op.value)⟩)) := by
        simp [setSecret, hload]
      have hread := FS.read_write_self fs (secretsFile m)
        (FileContent.store ⟨1, upsertEntry es op.name (encryptEntry m.key op.nonce op.value)⟩)
      obtain ⟨fs1, h1, h2⟩ := ih _ _ hread
      exact ⟨fs1, by simp [runSets, hset, h1], by simpa [applyOps] using h2⟩

theorem applyOps_disjoint (key : Bytes) :
    ∀ (ops : List SetOp) (es : List (String × SecretEntry)),
      (∀ op ∈ ops, op.name ∉ es.map Prod.fst) →
      (ops.map SetOp.name).Nodup →
      applyOps key es ops =
        es ++ ops.map (fun op => (op.name, encryptEntry key op.nonce op.value)) := by
  intro ops
  induction ops with
  | nil => intro es _ _; simp [applyOps]
  | cons op ops ih =>
      intro es hdisj hnd
      simp only [List.map_cons, List.nodup_cons] at hnd
      have hstep := upsertEntry_not_mem es op.name (encryptEntry key op.nonce op.value)
        (hdisj op (List.mem_cons_self op ops))
      have hdisj1 : ∀ op1 ∈ ops, op1.name ∉ (es ++ [(op.name, encryptEntry key op.nonce op.value)]).map Prod.fst := by
        intro op1 hop1
        simp only [List.map_append, List.mem_append, List.map_cons, List.map_nil,
          List.mem_singleton, List.mem_cons]
        intro hc
        rcases hc with hc | hc
        · exact hdisj op1 (List.mem_cons_of_mem op hop1) hc
        · rcases hc with hc | hc
          · exact hnd.1 (hc ▸ List.mem_map_of_mem SetOp.name hop1)
          · simp at hc
      calc applyOps key es (op :: ops)
      _ = applyOps key (es ++ [(op.name, encryptEntry key op.nonce op.value)]) ops := by
          simp [applyOps, hstep]
      _ = (es ++ [(op.name, encryptEntry key op.nonce op.value)]) ++
            ops.map (fun op1 => (op1.name, encryptEntry key op1.nonce op1.value)) :=
          ih _ hdisj1 hnd.2
      _ = es ++ (op :: ops).map (fun op1 => (op1.name, encryptEntry key op1.nonce op1.value)) := by
          simp

theorem lookupEntry_ops_map (key : Bytes) :
    ∀ (ops : List SetOp) (op : SetOp), op ∈ ops → (ops.map SetOp.name).Nodup →
      lookupEntry (ops.map fun o => (o.name, encryptEntry key o.nonce o.value)) op.name =
        some (encryptEntry key op.nonce op.value) := by
  intro ops
  induction ops with
  | nil => intro op h; simp at h
  | cons o os ih =>
      intro op hop hnd
      simp only [List.map_cons, List.nodup_cons] at hnd
      rcases List.mem_cons.mp hop with heq | hmem
      · subst heq
        simp [lookupEntry]
      · have hne : ¬ o.name = op.name := by
          intro hc
          exact hnd.1 (hc ▸ List.mem_map_of_mem SetOp.name hmem)
        simp [lookupEntry, hne, ih op hmem hnd.2]

theorem decryptAll_ok (key : Bytes) :
    ∀ (es : List (String × SecretEntry)),
      (∀ p ∈ es, tagOf key p.2.nonce p.2.ciphertext = p.2.tag) →
      decryptAll key es = Except.ok (es.map fun p => (p.1, xorStream key p.2.nonce 0 p.2.ciphertext)) := by
  intro es
  induction es with
  | nil => intro _; simp [decryptAll]
  | cons p ps ih =>
      intro h
      obtain ⟨n, e⟩ := p
      have h1 := h (n, e) (List.mem_cons_self _ _)
      have h2 := ih fun q hq => h q (List.mem_cons_of_mem _ hq)
      have hd : decryptEntry key e = Except.ok (xorStream key e.nonce 0 e.ciphertext) := by
        simp [decryptEntry, h1]
      simp [decryptAll, hd, h2]

theorem framingByte_b64char (n : Nat) : framingByte (b64char n) = true := by
  have h : n % 64 < 64 := Nat.mod_lt _ (by decide)
  have key : ∀ r, r < 64 → framingByte
      (if r < 26 then 65 + r
       else if r < 52 then 71 + r
       else if r < 62 then r - 4
       else if r = 62 then 43
       else 47) = true := by decide
  unfold b64char
  exact key (n % 64) h

theorem framing_encB64 : ∀ (bs : Bytes) (b : Nat), b ∈ encB64 bs → framingByte b = true := by
  intro bs
  induction bs with
  | nil => intro b hb; simp [encB64] at hb
  | cons x xs ih =>
      intro b hb
      simp only [encB64, List.mem_cons] at hb
      rcases hb with hb | hb | hb
      · exact hb ▸ framingByte_b64char _
      · exact hb ▸ framingByte_b64char _
      · exact ih b hb

theorem mem_joinComma : ∀ (l : List Bytes) (b : Nat), b ∈ joinComma l →
    b = 44 ∨ ∃ x ∈ l, b ∈ x := by
  intro l
  induction l with
  | nil => intro b hb; simp [joinComma] at hb
  | cons x xs ih =>
      intro b hb
      cases xs with
      | nil =>
          simp only [joinComma] at hb
          exact Or.inr ⟨x, by simp, hb⟩
      | cons y ys =>
          simp only [joinComma, List.mem_append, List.mem_cons] at hb
          rcases hb with hb | hb | hb
          · exact Or.inr ⟨x, by simp, hb⟩
          · exact Or.inl hb
          · rcases ih b hb with h44 | ⟨z, hz, hbz⟩
            · exact Or.inl h44
            · exact Or.inr ⟨z, List.mem_cons_of_mem _ hz, hbz⟩

theorem serializeEntry_allowed (s : SecretStoreFile) (p : String × SecretEntry)
    (hp : p ∈ s.entries) : ∀ b ∈ serializeEntry p, allowedByte s b = true := by
  intro b hb
  have hname : b ∈ strBytes p.1 → allowedByte s b = true := by
    intro hbn
    have h2 : (s.entries.any fun q => (strBytes q.1).contains b) = true := by
      rw [List.any_eq_true]
      refine ⟨p, hp, ?_⟩
      show List.elem b (strBytes p.1) = true
      exact List.elem_iff.mpr hbn
    unfold allowedByte
    rw [h2, Bool.or_true]
  have hframe : framingByte b = true → allowedByte s b = true := by
    intro hf; simp [allowedByte, hf]
  have hq1 : ∀ x ∈ strBytes "\"", framingByte x = true := by decide
  have hq2 : ∀ x ∈ strBytes "\":\x7b\"nonce\":\"", framingByte x = true := by decide
  have hq3 : ∀ x ∈ strBytes "\",\"ct\":\"", framingByte x = true := by decide
  have hq4 : ∀ x ∈ strBytes "\",\"tag\":\"", framingByte x = true := by decide
  have hq5 : ∀ x ∈ strBytes "\"\x7d", framingByte x = true := by decide
  unfold serializeEntry at hb
  simp only [List.mem_append] at hb
  rcases hb with ((((((((hb | hb) | hb) | hb) | hb) | hb) | hb) | hb) | hb)
  · exact hframe (hq1 b hb)
  · exact hname hb
  · exact hframe (hq2 b hb)
  · exact hframe (framing_encB64 _ b hb)
  · exact hframe (hq3 b hb)
  · exact hframe (framing_encB64 _ b hb)
  · exact hframe (hq4 b hb)
  · exact hframe (framing_encB64 _ b hb)
  · exact hframe (hq5 b hb)

theorem serializeStore_allowed (s : SecretStoreFile) :
    ∀ b ∈ serializeStore s, allowedByte s b = true := by
  intro b hb
  have hframe : framingByte b = true → allowedByte s b = true := by
    intro hf; simp [allowedByte, hf]
  have hq1 : ∀ x ∈ strBytes "\x7b\"version\":\"", framingByte x = true := by decide
  have hq2 : ∀ x ∈ strBytes "\",\"entries\":\x7b", framingByte x = true := by decide
  have hq3 : ∀ x ∈ strBytes "\x7d\x7d", framingByte x = true := by decide
  unfold serializeStore at hb
  simp only [List.mem_append] at hb
  rcases hb with ((((hb | hb) | hb) | hb) | hb)
  · exact hframe (hq1 b hb)
  · exact hframe (framing_encB64 _ b hb)
  · exact hframe (hq2 b hb)
  · rcases mem_joinComma _ b hb with h44 | ⟨x, hx, hbx⟩
    · exact hframe (by rw [h44]; decide)
    · rcases List.mem_map.mp hx with ⟨p, hp, hpx⟩
      exact serializeEntry_allowed s p hp b (hpx ▸ hbx)
  · exact hframe (hq3 b hb)

/-- C1: on an initialized store, `set_secret(k, v)` followed by `get_secret(k)` returns
exactly `v`, for every name `k` and every valid UTF-8 value `v` (values are modelled as
their UTF-8 byte sequences, so validity is every byte being below 256). -/
theorem set_then_get_returns_value (m : SecretsManager) (fs : FS) (s : SecretStoreFile)
    (nonce : Bytes) (k : String) (v : Bytes)
    (hs : loadStore m fs = Except.ok s) (_hv : validBytes v) :
    ∃ fs1, setSecret m nonce fs k v = Except.ok fs1 ∧
      getSecret m fs1 k = Except.ok (some v) := by
  have hset : setSecret m nonce fs k v = Except.ok (fs.write (secretsFile m)
      (FileContent.store ⟨s.version, upsertEntry s.entries k (encryptEntry m.key nonce v)⟩)) := by
    simp [setSecret, hs]
  refine ⟨_, hset, ?_⟩
  have hver := (loadStore_ok_elim m fs s hs).2
  have hread := FS.read_write_self fs (secretsFile m)
    (FileContent.store ⟨s.version, upsertEntry s.entries k (encryptEntry m.key nonce v)⟩)
  have hload := loadStore_of_read m _ _ hread hver
  simp [getSecret, hload, lookupEntry_upsert_self, decryptEntry_encryptEntry]

/-- C1 witness: a concrete round trip through an initialized store. -/
theorem set_then_get_returns_value_witness :
    loadStore ⟨["proj"], [9, 8, 7, 6]⟩ ((initStore ⟨["proj"], [9, 8, 7, 6]⟩ ⟨[]⟩).1) =
        Except.ok ⟨1, []⟩ ∧
    validBytes (strBytes "test_value") ∧
    ∃ fs1, setSecret ⟨["proj"], [9, 8, 7, 6]⟩ [1, 2] ((initStore ⟨["proj"], [9, 8, 7, 6]⟩ ⟨[]⟩).1)
        "TEST_KEY" (strBytes "test_value") = Except.ok fs1 ∧
      getSecret ⟨["proj"], [9, 8, 7, 6]⟩ fs1 "TEST_KEY" = Except.ok (some (strBytes "test_value")) :=
  ⟨by decide, by decide,
    set_then_get_returns_value ⟨["proj"], [9, 8, 7, 6]⟩ _ ⟨1, []⟩ [1, 2] "TEST_KEY"
      (strBytes "test_value") (by decide) (by decide)⟩

/-- C2: calling `set_secret` on a store that has not been initialized fails with
StoreNotInitializedError and leaves the filesystem (hence any store file) unchanged. -/
theorem setSecret_before_init_fails (m : SecretsManager) (nonce : Bytes) (fs : FS)
    (k : String) (v : Bytes) (h : fs.read (secretsFile m) = none) :
    setSecretRun m nonce fs k v = (fs, some SecretsError.storeNotInitialized) := by
  simp [setSecretRun, setSecret, loadStore, h]

/-- C2 witness: setting a secret on an empty filesystem fails and changes nothing. -/
theorem setSecret_before_init_fails_witness :
    (FS.mk []).read (secretsFile ⟨["proj"], [9, 8, 7, 6]⟩) = none ∧
    setSecretRun ⟨["proj"], [9, 8, 7, 6]⟩ [1] ⟨[]⟩ "KEY" (strBytes "value") =
      (⟨[]⟩, some SecretsError.storeNotInitialized) :=
  ⟨by decide, setSecret_before_init_fails ⟨["proj"], [9, 8, 7, 6]⟩ [1] ⟨[]⟩ "KEY"
    (strBytes "value") (by decide)⟩

/-- C9: on an initialized store, `get_secret` for a name with no stored entry returns
"not found" (none), not an error; as a pure read it cannot modify the store. -/
theorem get_missing_returns_none (m : SecretsManager) (fs : FS) (s : SecretStoreFile)
    (name : String) (hs : loadStore m fs = Except.ok s)
    (hn : lookupEntry s.entries name = none) :
    getSecret m fs name = Except.ok none := by
  simp [getSecret, hs, hn]

/-- C9 witness: looking up a missing name on a freshly initialized store. -/
theorem get_missing_returns_none_witness :
    loadStore ⟨["proj"], [9, 8, 7, 6]⟩ ((initStore ⟨["proj"], [9, 8, 7, 6]⟩ ⟨[]⟩).1) =
        Except.ok ⟨1, []⟩ ∧
    lookupEntry ([] : List (String × SecretEntry)) "NOPE" = none ∧
    getSecret ⟨["proj"], [9, 8, 7, 6]⟩ ((initStore ⟨["proj"], [9, 8, 7, 6]⟩ ⟨[]⟩).1) "NOPE" =
      Except.ok none :=
  ⟨by decide, by decide,
    get_missing_returns_none ⟨["proj"], [9, 8, 7, 6]⟩ _ ⟨1, []⟩ "NOPE" (by decide) (by decide)⟩

/-- C6: the first `init_store` on a fresh path returns true and creates the (empty)
store file; any subsequent call finds a file and returns false leaving the whole
filesystem - in particular all previously stored secrets - unchanged. -/
theorem initStore_idempotent (m : SecretsManager) (fs : FS) :
    (fs.read (secretsFile m) = none →
      (initStore m fs).2 = true ∧
      (initStore m fs).1.read (secretsFile m) = some (FileContent.store ⟨1, []⟩)) ∧
    (∀ c, fs.read (secretsFile m) = some c → initStore m fs = (fs, false)) := by
  constructor
  · intro h
    refine ⟨by simp [initStore, h], ?_⟩
    simp only [initStore, h]
    exact FS.read_write_self fs (secretsFile m) (FileContent.store ⟨1, []⟩)
  · intro c h
    simp [initStore, h]

/-- C6 witness: first call creates, second call reports false and changes nothing. -/
theorem initStore_idempotent_witness :
    ((initStore ⟨["proj"], [9, 8, 7, 6]⟩ ⟨[]⟩).2 = true ∧
      (initStore ⟨["proj"], [9, 8, 7, 6]⟩ ⟨[]⟩).1.read (secretsFile ⟨["proj"], [9, 8, 7, 6]⟩) =
        some (FileContent.store ⟨1, []⟩)) ∧
    initStore ⟨["proj"], [9, 8, 7, 6]⟩ ((initStore ⟨["proj"], [9, 8, 7, 6]⟩ ⟨[]⟩).1) =
      ((initStore ⟨["proj"], [9, 8, 7, 6]⟩ ⟨[]⟩).1, false) :=
  ⟨(initStore_idempotent ⟨["proj"], [9, 8, 7, 6]⟩ ⟨[]⟩).1 (by decide),
    (initStore_idempotent ⟨["proj"], [9, 8, 7, 6]⟩ _).2 (FileContent.store ⟨1, []⟩) (by decide)⟩

/-- C7: key acquisition is stable - whichever backend produced the key (native
facility or the fallback key file created on first use), calling the operation again
in the resulting host state returns the same key bytes and leaves the state fixed. -/
theorem key_acquisition_stable (env : KeyEnv) (k : Bytes) (env1 : KeyEnv)
    (h : getOrCreateKey env = Except.ok (k, env1)) :
    getOrCreateKey env1 = Except.ok (k, env1) := by
  obtain ⟨na, ns, nw, kf, w, fr⟩ := env
  cases na <;> cases ns <;> cases nw <;> cases kf <;> cases w <;>
    simp_all [getOrCreateKey, fileFallback] <;>
    (obtain ⟨hk, henv⟩ := h; subst hk; subst henv; simp [getOrCreateKey, fileFallback])

/-- C7 witness: the fallback case - native storage unavailable, the key file is
created on first use and read back on the second call. -/
theorem key_acquisition_stable_witness :
    getOrCreateKey ⟨false, none, false, none, true, [5, 5]⟩ =
      Except.ok ([5, 5], ⟨false, none, false, some [5, 5], true, [5, 5]⟩) ∧
    getOrCreateKey ⟨false, none, false, some [5, 5], true, [5, 5]⟩ =
      Except.ok ([5, 5], ⟨false, none, false, some [5, 5], true, [5, 5]⟩) :=
  ⟨by decide, key_acquisition_stable ⟨false, none, false, none, true, [5, 5]⟩ [5, 5]
    ⟨false, none, false, some [5, 5], true, [5, 5]⟩ (by decide)⟩

/-- C10: the encrypted store file always sits at projectPath/.secrets.devforge, and
`inject_runtime_env` with no output argument writes to projectPath/.env.secrets. -/
theorem fixed_store_paths (m : SecretsManager) :
    secretsFile m = m.projectPath ++ [".secrets.devforge"] ∧
    ∀ (fs : FS) (r : FsPath × FS), injectRuntimeEnv m none fs = Except.ok r →
      r.1 = m.projectPath ++ [".env.secrets"] := by
  refine ⟨rfl, ?_⟩
  intro fs r h
  unfold injectRuntimeEnv at h
  split at h
  · exact absurd h (by simp)
  · split at h
    · exact absurd h (by simp)
    · cases h
      rfl

/-- C10 witness: a concrete successful injection lands at projectPath/.env.secrets. -/
theorem fixed_store_paths_witness :
    injectRuntimeEnv ⟨["proj"], [9, 8, 7, 6]⟩ none ((initStore ⟨["proj"], [9, 8, 7, 6]⟩ ⟨[]⟩).1) =
      Except.ok (envSecretsFile ⟨["proj"], [9, 8, 7, 6]⟩,
        ((initStore ⟨["proj"], [9, 8, 7, 6]⟩ ⟨[]⟩).1).write
          (envSecretsFile ⟨["proj"], [9, 8, 7, 6]⟩) (FileContent.env [])) ∧
    (envSecretsFile ⟨["proj"], [9, 8, 7, 6]⟩,
        ((initStore ⟨["proj"], [9, 8, 7, 6]⟩ ⟨[]⟩).1).write
          (envSecretsFile ⟨["proj"], [9, 8, 7, 6]⟩) (FileContent.env [])).1 =
      (⟨["proj"], [9, 8, 7, 6]⟩ : SecretsManager).projectPath ++ [".env.secrets"] :=
  ⟨by decide, (fixed_store_paths ⟨["proj"], [9, 8, 7, 6]⟩).2
    ((initStore ⟨["proj"], [9, 8, 7, 6]⟩ ⟨[]⟩).1)
    (envSecretsFile ⟨["proj"], [9, 8, 7, 6]⟩,
      ((initStore ⟨["proj"], [9, 8, 7, 6]⟩ ⟨[]⟩).1).write
        (envSecretsFile ⟨["proj"], [9, 8, 7, 6]⟩) (FileContent.env [])) (by decide)⟩

/-- C4: the write lock linearizes `set_secret`, so a concurrent batch of calls on
distinct names executes as some sequential order of the calls; for every such order on
an initialized empty store, all N writes persist - `list_secrets` returns exactly the N
names and every value is retrievable by `get_secret`. -/
theorem concurrent_sets_all_persist (m : SecretsManager) (fs : FS) (ops : List SetOp)
    (h0 : fs.read (secretsFile m) = some (FileContent.store ⟨1, []⟩))
    (hnd : (ops.map SetOp.name).Nodup) :
    ∃ fs1, runSets m fs ops = Except.ok fs1 ∧
      listSecrets m fs1 = Except.ok (ops.map SetOp.name) ∧
      ∀ op ∈ ops, getSecret m fs1 op.name = Except.ok (some op.value) := by
  obtain ⟨fs1, hrun, hread⟩ := runSets_ok m ops fs [] h0
  have happ : applyOps m.key [] ops =
      ops.map (fun op => (op.name, encryptEntry m.key op.nonce op.value)) := by
    have := applyOps_disjoint m.key ops [] (by simp) hnd
    simpa using this
  have hload := loadStore_of_read m fs1 _ hread rfl
  refine ⟨fs1, hrun, ?_, ?_⟩
  · simp only [listSecrets, hload, happ]
    simp [List.map_map, Function.comp]
  · intro op hop
    have hlook : lookupEntry (applyOps m.key [] ops) op.name =
        some (encryptEntry m.key op.nonce op.value) := by
      rw [happ]
      exact lookupEntry_ops_map m.key ops op hop hnd
    simp [getSecret, hload, hlook, decryptEntry_encryptEntry]

/-- C4 witness: 5 writers times 10 distinct names (50 in all), in one interleaved
order, all persist and are all retrievable. -/
theorem concurrent_sets_all_persist_witness :
    ((initStore ⟨["proj"], [9, 8, 7, 6]⟩ ⟨[]⟩).1.read (secretsFile ⟨["proj"], [9, 8, 7, 6]⟩) =
        some (FileContent.store ⟨1, []⟩)) ∧
    ((((List.range 50).map fun i =>
        SetOp.mk ("t" ++ toString (i / 10) ++ "_KEY_" ++ toString (i % 10)) [i] [i % 250]).map
          SetOp.name).Nodup) ∧
    ∃ fs1, runSets ⟨["proj"], [9, 8, 7, 6]⟩ ((initStore ⟨["proj"], [9, 8, 7, 6]⟩ ⟨[]⟩).1)
        ((List.range 50).map fun i =>
          SetOp.mk ("t" ++ toString (i / 10) ++ "_KEY_" ++ toString (i % 10)) [i] [i % 250]) =
        Except.ok fs1 ∧
      listSecrets ⟨["proj"], [9, 8, 7, 6]⟩ fs1 =
        Except.ok (((List.range 50).map fun i =>
          SetOp.mk ("t" ++ toString (i / 10) ++ "_KEY_" ++ toString (i % 10)) [i] [i % 250]).map
            SetOp.name) ∧
      ∀ op ∈ ((List.range 50).map fun i =>
          SetOp.mk ("t" ++ toString (i / 10) ++ "_KEY_" ++ toString (i % 10)) [i] [i % 250]),
        getSecret ⟨["proj"], [9, 8, 7, 6]⟩ fs1 op.name = Except.ok (some op.value) :=
  ⟨by decide, by decide,
    concurrent_sets_all_persist ⟨["proj"], [9, 8, 7, 6]⟩ _ _ (by decide) (by decide)⟩

/-- C3: flipping any single byte of a stored entry's ciphertext makes the subsequent
`get_secret` for that name fail with CorruptStoreError instead of returning a
(possibly garbage) plaintext. The entry is an honestly stored one: its tag matches its
ciphertext and its bytes are bytes. -/
theorem byte_flip_detected (m : SecretsManager) (fs : FS) (s : SecretStoreFile)
    (name : String) (e : SecretEntry) (i b : Nat) (fs1 : FS)
    (_hs : loadStore m fs = Except.ok s)
    (_he : lookupEntry s.entries name = some e)
    (htag : e.tag = tagOf m.key e.nonce e.ciphertext)
    (hvb : validBytes e.ciphertext)
    (hi : i < e.ciphertext.length)
    (hb : b < 256)
    (hne : b ≠ e.ciphertext.getD i 0)
    (hfs1 : fs1 = fs.write (secretsFile m) (FileContent.store
      ⟨1, upsertEntry s.entries name ⟨e.nonce, e.ciphertext.set i b, e.tag⟩⟩)) :
    getSecret m fs1 name = Except.error SecretsError.corruptStore := by
  subst hfs1
  have hread := FS.read_write_self fs (secretsFile m) (FileContent.store
    ⟨1, upsertEntry s.entries name ⟨e.nonce, e.ciphertext.set i b, e.tag⟩⟩)
  have hload := loadStore_of_read m _ _ hread rfl
  have horig : e.ciphertext.getD i 0 < 256 := by
    have hmem : e.ciphertext.getD i 0 ∈ e.ciphertext := by
      rw [List.getD_eq_getElem?_getD]
      rw [List.getElem?_eq_getElem hi]
      exact List.getElem_mem _
    exact hvb _ hmem
  have hflip := tagOf_flip_ne m.key e.nonce e.ciphertext i b hi horig hb hne
  have hne2 : tagOf m.key e.nonce (e.ciphertext.set i b) ≠ e.tag := by
    rw [htag]
    exact hflip
  have hdec : decryptEntry m.key ⟨e.nonce, e.ciphertext.set i b, e.tag⟩ =
      Except.error SecretsError.corruptStore := by
    simp [decryptEntry, hne2]
  simp [getSecret, hload, lookupEntry_upsert_self, hdec]

/-- C8: on a store whose entries are all honestly encrypted, `inject_runtime_env()`
writes the env file with exactly one name/value line per stored entry (the decrypted
values, in store order), overwrites whatever was at the output path, and leaves the
encrypted store file untouched. -/
theorem inject_writes_all_entries (m : SecretsManager) (fs : FS) (s : SecretStoreFile)
    (hs : loadStore m fs = Except.ok s)
    (hok : ∀ p ∈ s.entries, tagOf m.key p.2.nonce p.2.ciphertext = p.2.tag) :
    ∃ fs1, injectRuntimeEnv m none fs = Except.ok (envSecretsFile m, fs1) ∧
      fs1.read (envSecretsFile m) = some (FileContent.env
        (s.entries.map fun p => (p.1, xorStream m.key p.2.nonce 0 p.2.ciphertext))) ∧
      fs1.read (secretsFile m) = fs.read (secretsFile m) := by
  have hdec := decryptAll_ok m.key s.entries hok
  have hne : secretsFile m ≠ envSecretsFile m := by
    unfold secretsFile envSecretsFile
    intro hc
    have := List.append_cancel_left hc
    simp at this
  refine ⟨fs.write (envSecretsFile m) (FileContent.env
    (s.entries.map fun p => (p.1, xorStream m.key p.2.nonce 0 p.2.ciphertext))), ?_, ?_, ?_⟩
  · simp [injectRuntimeEnv, hs, hdec]
  · exact FS.read_write_self _ _ _
  · exact FS.read_write_ne fs (envSecretsFile m) (secretsFile m) _ hne

/-- A concrete manager used as an explicit input to witnesses. -/
def exMgr : SecretsManager := ⟨["proj"], [9, 8, 7, 6]⟩

/-- A freshly initialized, empty filesystem-plus-store. -/
def exFs1 : FS := (initStore exMgr ⟨[]⟩).1

/-- The honest entry obtained by encrypting the value "PASSWORD" under exMgr's key. -/
def exEntryP : SecretEntry := encryptEntry [9, 8, 7, 6] [1, 2] (strBytes "PASSWORD")

/-- The store holding that single entry under the name "PASSWORD". -/
def exStoreP : SecretStoreFile := ⟨1, [("PASSWORD", exEntryP)]⟩

/-- The filesystem after storing that entry. -/
def exFsP : FS := exFs1.write (secretsFile exMgr) (FileContent.store exStoreP)

/-- The filesystem after flipping ciphertext byte 0 of that entry to 0. -/
def exFsFlip : FS := exFsP.write (secretsFile exMgr) (FileContent.store
  ⟨1, upsertEntry exStoreP.entries "PASSWORD"
    ⟨exEntryP.nonce, exEntryP.ciphertext.set 0 0, exEntryP.tag⟩⟩)

/-- C3 witness: a concrete honest entry whose ciphertext byte 0 is flipped; the
subsequent get fails with CorruptStoreError. -/
theorem byte_flip_detected_witness :
    loadStore exMgr exFsP = Except.ok exStoreP ∧
    lookupEntry exStoreP.entries "PASSWORD" = some exEntryP ∧
    exEntryP.tag = tagOf exMgr.key exEntryP.nonce exEntryP.ciphertext ∧
    validBytes exEntryP.ciphertext ∧
    0 < exEntryP.ciphertext.length ∧
    (0 : Nat) < 256 ∧
    (0 : Nat) ≠ exEntryP.ciphertext.getD 0 0 ∧
    exFsFlip = exFsP.write (secretsFile exMgr) (FileContent.store
      ⟨1, upsertEntry exStoreP.entries "PASSWORD"
        ⟨exEntryP.nonce, exEntryP.ciphertext.set 0 0, exEntryP.tag⟩⟩) ∧
    getSecret exMgr exFsFlip "PASSWORD" = Except.error SecretsError.corruptStore :=
  ⟨by decide, by decide, by decide, by decide, by decide, by decide, by decide, by decide,
    byte_flip_detected exMgr exFsP exStoreP "PASSWORD" exEntryP 0 0 exFsFlip
      (by decide) (by decide) (by decide) (by decide) (by decide) (by decide) (by decide)
      (by decide)⟩

/-- The store of the spec's injection example: DATABASE_PASSWORD and API_KEY. -/
def exStoreInj : SecretStoreFile :=
  ⟨1, [("DATABASE_PASSWORD", encryptEntry [9, 8, 7, 6] [1] (strBytes "p1")),
       ("API_KEY", encryptEntry [9, 8, 7, 6] [2] (strBytes "k1"))]⟩

/-- A filesystem holding that store (with a stale file already at the output path, so
the injection below overwrites it). -/
def exFsInj : FS := FS.mk
  [(secretsFile exMgr, FileContent.store exStoreInj),
   (envSecretsFile exMgr, FileContent.raw [0])]

/-- C8 witness: injecting the two-entry example store writes both decrypted lines to
the default output path, overwriting the stale file there, and leaves the store file
untouched. -/
theorem inject_writes_all_entries_witness :
    loadStore exMgr exFsInj = Except.ok exStoreInj ∧
    (∀ p ∈ exStoreInj.entries, tagOf exMgr.key p.2.nonce p.2.ciphertext = p.2.tag) ∧
    ∃ fs1, injectRuntimeEnv exMgr none exFsInj = Except.ok (envSecretsFile exMgr, fs1) ∧
      fs1.read (envSecretsFile exMgr) = some (FileContent.env
        (exStoreInj.entries.map fun p => (p.1, xorStream exMgr.key p.2.nonce 0 p.2.ciphertext))) ∧
      fs1.read (secretsFile exMgr) = exFsInj.read (secretsFile exMgr) :=
  ⟨by decide, by decide,
    inject_writes_all_entries exMgr exFsInj exStoreInj (by decide) (by decide)⟩

/-- C5 (amended): after `set_secret(k, v)` with `v` of length at least 8, the raw
bytes of `v` do not occur as a contiguous substring of the store file's bytes,
provided `v` contains at least one byte outside the file's plaintext alphabet (the
base64/JSON framing characters and the bytes of the stored names); without that
proviso `v` can coincide with plaintext framing, e.g. with its own stored name. -/
theorem no_plaintext_at_rest_amended (m : SecretsManager) (nonce : Bytes) (fs : FS)
    (name : String) (v : Bytes) (fs1 : FS) (s1 : SecretStoreFile)
    (_hset : setSecret m nonce fs name v = Except.ok fs1)
    (_hread : fs1.read (secretsFile m) = some (FileContent.store s1))
    (_hlen : 8 ≤ v.length)
    (hbad : ∃ b ∈ v, allowedByte s1 b = false) :
    ¬ (v <:+: serializeStore s1) := by
  intro hinf
  obtain ⟨b, hbv, hbf⟩ := hbad
  obtain ⟨ss, tt, heq⟩ := hinf
  have hbs : b ∈ serializeStore s1 := by
    rw [← heq]
    simp only [List.append_assoc, List.mem_append]
    exact Or.inr (Or.inl hbv)
  have := serializeStore_allowed s1 b hbs
  rw [hbf] at this
  exact Bool.false_ne_true this

/-- C5 witness for the amended claim: a value of eight bytes ≥ 200 (outside the file
alphabet) stored under "PASSWORD" never appears in the serialized store bytes. -/
theorem no_plaintext_at_rest_amended_witness :
    setSecret exMgr [1, 2] exFs1 "PASSWORD" [200, 201, 202, 203, 204, 205, 206, 207] =
      Except.ok (exFs1.write (secretsFile exMgr) (FileContent.store
        ⟨1, [("PASSWORD", encryptEntry [9, 8, 7, 6] [1, 2]
          [200, 201, 202, 203, 204, 205, 206, 207])]⟩)) ∧
    (exFs1.write (secretsFile exMgr) (FileContent.store
        ⟨1, [("PASSWORD", encryptEntry [9, 8, 7, 6] [1, 2]
          [200, 201, 202, 203, 204, 205, 206, 207])]⟩)).read (secretsFile exMgr) =
      some (FileContent.store ⟨1, [("PASSWORD", encryptEntry [9, 8, 7, 6] [1, 2]
        [200, 201, 202, 203, 204, 205, 206, 207])]⟩) ∧
    8 ≤ ([200, 201, 202, 203, 204, 205, 206, 207] : Bytes).length ∧
    (∃ b ∈ ([200, 201, 202, 203, 204, 205, 206, 207] : Bytes),
      allowedByte ⟨1, [("PASSWORD", encryptEntry [9, 8, 7, 6] [1, 2]
        [200, 201, 202, 203, 204, 205, 206, 207])]⟩ b = false) ∧
    ¬ (([200, 201, 202, 203, 204, 205, 206, 207] : Bytes) <:+:
      serializeStore ⟨1, [("PASSWORD", encryptEntry [9, 8, 7, 6] [1, 2]
        [200, 201, 202, 203, 204, 205, 206, 207])]⟩) :=
  ⟨by decide, by decide, by decide, by decide,
    no_plaintext_at_rest_amended exMgr [1, 2] exFs1 "PASSWORD"
      [200, 201, 202, 203, 204, 205, 206, 207]
      (exFs1.write (secretsFile exMgr) (FileContent.store
        ⟨1, [("PASSWORD", encryptEntry [9, 8, 7, 6] [1, 2]
          [200, 201, 202, 203, 204, 205, 206, 207])]⟩))
      ⟨1, [("PASSWORD", encryptEntry [9, 8, 7, 6] [1, 2]
        [200, 201, 202, 203, 204, 205, 206, 207])]⟩
      (by decide) (by decide) (by decide) (by decide)⟩

/-- C5 counterexample to the claim as stated: with k = v = "PASSWORD" (8 bytes), after
`set_secret(k, v)` the raw bytes of v do occur in the store file - the name is stored
in the clear (listing must work without decryption), so a value equal to its own name
appears verbatim. -/
theorem no_plaintext_at_rest_counterexample :
    8 ≤ (strBytes "PASSWORD").length ∧
    setSecret exMgr [1, 2] exFs1 "PASSWORD" (strBytes "PASSWORD") = Except.ok exFsP ∧
    exFsP.read (secretsFile exMgr) = some (FileContent.store exStoreP) ∧
    strBytes "PASSWORD" <:+: serializeStore exStoreP := by
  refine ⟨by decide, by decide, by decide, ?_⟩
  decide

end DevForge
